/-
Verification of the jet (truncated Taylor series) propagation module
`jax/experimental/jet.py`.

Modelling conventions used throughout this file:
* Scalar array values are modelled by `ℚ` (exact arithmetic stands in for
  floating point; the float `factorial` values are exact integers in the
  relevant range).
* A primitive operation bound with its static parameters is an abstract
  Lean function parameter (e.g. `op : List ℚ → ℚ` for an n-ary primitive,
  `E : ℚ → ℚ` for `lax.exp`).
* The coefficient list `series` of a jet is a `List`, and `[x] + series`
  (Python) becomes the index function `seriesToFun x series`.
-/
import Mathlib

set_option autoImplicit false

namespace JetSpec

/-! ### Python `zip(*lists)` semantics

`linear_prop` computes `zip(*series_in)`.  Python `zip` keeps taking one
element from the front of every list and stops as soon as any list (or the
argument tuple itself) is exhausted. -/

lemma sum_len_tails_lt {α : Type} (ls : List (List α)) (hne : ls ≠ [])
    (hmem : ∀ l ∈ ls, ¬ l.isEmpty = true) :
    ((ls.map List.tail).map List.length).sum < (ls.map List.length).sum := by
  induction ls with
  | nil => exact absurd rfl hne
  | cons l rest ih =>
    simp only [List.map_cons, List.sum_cons]
    have hl : ¬ l.isEmpty = true := hmem l (List.mem_cons_self l rest)
    have hlt : (List.tail l).length < l.length := by
      cases l with
      | nil => exact absurd rfl hl
      | cons a t => simp
    rcases rest with - | ⟨r, rs⟩
    · simpa using hlt
    · have h2 := ih (by simp) (fun x hx => hmem x (List.mem_cons_of_mem l hx))
      omega

def pyZip {α : Type} [Inhabited α] : List (List α) → List (List α)
  | ls =>
    if h : ls.isEmpty || ls.any List.isEmpty then []
    else
      (ls.map (fun l => l.headD default)) :: pyZip (ls.map (fun l => l.tail))
termination_by ls => (ls.map List.length).sum
decreasing_by
  simp only [Bool.or_eq_true, List.isEmpty_iff, List.any_eq_true, not_or, not_exists,
    not_and] at h
  obtain ⟨hne, hmem⟩ := h
  exact sum_len_tails_lt ls hne (fun l hl => by simp [hmem l hl])

/-! ### The generic linear propagation rule (`linear_prop`)

Source:
```
def linear_prop(prim, primals_in, series_in, **params):
  primal_out = prim.bind(*primals_in, **params)
  series_out = [prim.bind(*terms_in, **params) for terms_in in zip(*series_in)]
  return primal_out, series_out
```
`prim.bind(... , **params)` is abstracted as `op : List α → α`. -/

def linear_prop {α : Type} [Inhabited α] (op : List α → α)
    (primals_in : List α) (series_in : List (List α)) : α × List α :=
  (op primals_in, (pyZip series_in).map op)

lemma headD_eq_getD_zero {α : Type} (l : List α) (d : α) : l.headD d = l.getD 0 d := by
  cases l <;> rfl

lemma tail_getD {α : Type} (l : List α) (k : ℕ) (d : α) :
    l.tail.getD k d = l.getD (k + 1) d := by
  cases l <;> rfl

/-- When every list in `ls` has the same length `K` and `ls` is nonempty,
Python `zip(*ls)` is exactly the `K`-row transpose: row `k` collects the
`k`-th element of every list. -/
lemma pyZip_uniform {α : Type} [Inhabited α] (K : ℕ) :
    ∀ ls : List (List α), ls ≠ [] → (∀ l ∈ ls, l.length = K) →
      pyZip ls = (List.range K).map (fun k => ls.map (fun l => l.getD k default)) := by
  induction K with
  | zero =>
    intro ls hne hlen
    rw [pyZip]
    have : ls.any List.isEmpty = true := by
      rcases ls with - | ⟨l, rest⟩
      · exact absurd rfl hne
      · have := hlen l (List.mem_cons_self l rest)
        simp [List.any_cons, List.isEmpty_iff, List.length_eq_zero.mp this]
    simp [this]
  | succ K ih =>
    intro ls hne hlen
    have hguard : ¬ ((ls.isEmpty || ls.any List.isEmpty) = true) := by
      simp only [Bool.or_eq_true, List.any_eq_true, List.isEmpty_iff, not_or]
      refine ⟨hne, ?_⟩
      rintro ⟨l, hl, hc⟩
      have hK := hlen l hl
      rw [hc] at hK
      simp at hK
    rw [pyZip, dif_neg hguard, List.range_succ_eq_map, List.map_cons, List.map_map]
    congr 1
    · simp only [headD_eq_getD_zero]
    · rw [ih (ls.map List.tail) (fun hc => hne (by simpa using hc)) ?_]
      · simp only [List.map_map, Function.comp_def, tail_getD, Nat.succ_eq_add_one]
      · intro t ht
        obtain ⟨l, hl, rfl⟩ := List.mem_map.mp ht
        have hK := hlen l hl
        simp only [List.length_tail, hK]
        omega

/-- Claim C1: the linear propagation rule returns `op` applied to the primal
inputs as primal output, and, for each order `k`, `op` applied to the order-`k`
coefficients of all operands as the order-`k` output coefficient; coefficients
of different orders never mix. -/
theorem linear_prop_spec {α : Type} [Inhabited α] (op : List α → α)
    (primals_in : List α) (series_in : List (List α)) (K : ℕ)
    (hne : series_in ≠ []) (hlen : ∀ s ∈ series_in, s.length = K) :
    (linear_prop op primals_in series_in).1 = op primals_in ∧
    (linear_prop op primals_in series_in).2.length = K ∧
    ∀ k, k < K → (linear_prop op primals_in series_in).2.get? k =
      some (op (series_in.map (fun s => s.getD k default))) := by
  unfold linear_prop
  rw [pyZip_uniform K series_in hne hlen]
  refine ⟨rfl, by simp, fun k hk => ?_⟩
  simp [List.getElem?_map, List.getElem?_range hk]

/-- Witness for C1: the rule on two jets of order 2 under the sum primitive. -/
theorem linear_prop_spec_witness :
    ([[(1 : ℚ), 0], [0, 1]] ≠ ([] : List (List ℚ))) ∧
    (linear_prop List.sum [(1 : ℚ), 2] [[1, 0], [0, 1]]).2.get? 0 =
      some (List.sum [(1 : ℚ), 0]) := by
  refine ⟨by simp, ?_⟩
  exact (linear_prop_spec List.sum [(1 : ℚ), 2] [[1, 0], [0, 1]] 2 (by simp)
    (by decide)).2.2 0 (by norm_num)

/-! ### The exponential rule (`_exp_taylor`)

Source:
```
def _exp_taylor(primals_in, series_in):
  x, = primals_in
  series, = series_in
  u = [x] + series
  v = [lax.exp(x)] + [None] * len(series)
  def scale(k, j): return 1. / (fact(k-j) * fact(j-1))
  for k in range(1,len(v)):
    v[k] = fact(k-1) * sum([scale(k, j)* v[k-j] * u[j] for j in range(1, k+1)])
  primal_out, *series_out = v
  return primal_out, series_out
```
`lax.exp` is abstracted as `E : ℚ → ℚ`.  The sum over `j ∈ [1, k]` is
reindexed by `j = i + 1` (so `i` ranges over `range k`) to make the
recursion on `v[k-j]` structurally well founded; the summands are unchanged. -/

def seriesToFun (x : ℚ) (series : List ℚ) : ℕ → ℚ :=
  fun j => if j = 0 then x else series.getD (j - 1) 0

def expCoef (E : ℚ → ℚ) (u : ℕ → ℚ) : ℕ → ℚ
  | 0 => E (u 0)
  | k + 1 =>
    (Nat.factorial k : ℚ) * ∑ i in Finset.range (k + 1),
      (1 / ((Nat.factorial (k - i) : ℚ) * (Nat.factorial i : ℚ))) *
        expCoef E u (k - i) * u (i + 1)
termination_by k => k
decreasing_by exact Nat.lt_succ_of_le (Nat.sub_le _ _)

def expTaylor (E : ℚ → ℚ) (x : ℚ) (series : List ℚ) : ℚ × List ℚ :=
  (expCoef E (seriesToFun x series) 0,
   (List.range series.length).map (fun i => expCoef E (seriesToFun x series) (i + 1)))

/-- The output of the exp rule read as one indexed family: index 0 is the
primal output, index `m ≥ 1` is the order-`m` output coefficient. -/
def expOutAt (E : ℚ → ℚ) (x : ℚ) (series : List ℚ) (m : ℕ) : ℚ :=
  if m = 0 then (expTaylor E x series).1
  else (expTaylor E x series).2.getD (m - 1) 0

lemma getD_map_range {α : Type} (f : ℕ → α) (n i : ℕ) (d : α) (hi : i < n) :
    ((List.range n).map f).getD i d = f i := by
  simp [List.getD, List.getElem?_map, List.getElem?_range hi]

lemma expOutAt_eq_expCoef (E : ℚ → ℚ) (x : ℚ) (series : List ℚ) (m : ℕ)
    (hm : m ≤ series.length) :
    expOutAt E x series m = expCoef E (seriesToFun x series) m := by
  rcases m with - | i
  · rfl
  · unfold expOutAt expTaylor
    simp only [Nat.succ_ne_zero, if_false, Nat.add_sub_cancel]
    exact getD_map_range _ _ _ _ (by omega)

/-- Claim C2: the exp rule returns `v_0 = exp(u_0)` and, for `k = 1..K`,
`v_k = fact(k-1) * Σ_{j=1}^{k} v_{k-j} u_j / (fact(k-j) fact(j-1))`;
in particular for `K = 1` the single output coefficient is `exp(x) * s`. -/
theorem exp_taylor_spec (E : ℚ → ℚ) (x : ℚ) (series : List ℚ) (k : ℕ)
    (hk1 : 1 ≤ k) (hk2 : k ≤ series.length) :
    (expTaylor E x series).1 = E x ∧
    expOutAt E x series k =
      (Nat.factorial (k - 1) : ℚ) * ∑ j in Finset.Icc 1 k,
        expOutAt E x series (k - j) * seriesToFun x series j /
          ((Nat.factorial (k - j) : ℚ) * (Nat.factorial (j - 1) : ℚ)) ∧
    ∀ s : ℚ, (expTaylor E x [s]).2 = [E x * s] := by
  obtain ⟨m, rfl⟩ : ∃ m, k = m + 1 := ⟨k - 1, by omega⟩
  refine ⟨by simp [expTaylor, expCoef, seriesToFun], ?_, ?_⟩
  · rw [expOutAt_eq_expCoef E x series (m + 1) hk2, expCoef,
      ← Nat.Ico_succ_right, Finset.sum_Ico_eq_sum_range]
    simp only [Nat.add_sub_cancel]
    apply congrArg
    apply Finset.sum_congr rfl
    intro i hi
    have hi2 : i < m + 1 := Finset.mem_range.mp hi
    have h1 : m + 1 - (1 + i) = m - i := by omega
    have h2 : 1 + i - 1 = i := by omega
    rw [h1, h2, expOutAt_eq_expCoef E x series (m - i) (by omega), add_comm 1 i]
    ring
  · intro s
    simp only [expTaylor, List.length_cons, List.length_nil, List.range_succ,
      List.range_zero, List.nil_append, List.map_cons, List.map_nil, expCoef,
      Finset.sum_range_one]
    norm_num [seriesToFun, expCoef]

/-- Witness for C2 at `E = (· + 1)`, `x = 2`, `series = [3, 5]`, `k = 1`. -/
theorem exp_taylor_spec_witness :
    expOutAt (fun t => t + 1) 2 [3, 5] 1 =
      (Nat.factorial (1 - 1) : ℚ) * ∑ j in Finset.Icc 1 1,
        expOutAt (fun t => t + 1) 2 [3, 5] (1 - j) * seriesToFun 2 [3, 5] j /
          ((Nat.factorial (1 - j) : ℚ) * (Nat.factorial (j - 1) : ℚ)) :=
  (exp_taylor_spec (fun t => t + 1) 2 [3, 5] 1 (le_refl 1) (by norm_num)).2.1

/-! ### The bilinear rule (`_bilinear_taylor_rule`)

Source:
```
def _bilinear_taylor_rule(prim, primals_in, series_in, **params):
  x, y = primals_in
  x_terms, y_terms = series_in
  u = [x] + x_terms
  w = [y] + y_terms
  v = [None] * len(u)
  op = partial(prim.bind, **params)
  def scale(k, j): return 1. / (fact(k - j) * fact(j))
  for k in range(0, len(v)):
    v[k] = fact(k) * sum([scale(k, j) * op(u[j], w[k-j]) for j in range(0, k+1)])
  primal_out, *series_out = v
  return primal_out, series_out
```
The bound primitive `op = partial(prim.bind, **params)` (used for `mul_p`,
`dot_general_p`, `conv_general_dilated_p`) is abstracted as `op : ℚ → ℚ → ℚ`. -/

def bilinearCoef (op : ℚ → ℚ → ℚ) (u w : ℕ → ℚ) (k : ℕ) : ℚ :=
  (Nat.factorial k : ℚ) * ∑ j in Finset.range (k + 1),
    (1 / ((Nat.factorial (k - j) : ℚ) * (Nat.factorial j : ℚ))) * op (u j) (w (k - j))

def bilinearTaylorRule (op : ℚ → ℚ → ℚ) (x y : ℚ) (x_terms y_terms : List ℚ) :
    ℚ × List ℚ :=
  (bilinearCoef op (seriesToFun x x_terms) (seriesToFun y y_terms) 0,
   (List.range x_terms.length).map
     (fun i => bilinearCoef op (seriesToFun x x_terms) (seriesToFun y y_terms) (i + 1)))

/-- The output of the bilinear rule read as one indexed family: index 0 is the
primal output, index `m ≥ 1` is the order-`m` output coefficient. -/
def bilinearOutAt (op : ℚ → ℚ → ℚ) (x y : ℚ) (x_terms y_terms : List ℚ) (m : ℕ) : ℚ :=
  if m = 0 then (bilinearTaylorRule op x y x_terms y_terms).1
  else (bilinearTaylorRule op x y x_terms y_terms).2.getD (m - 1) 0

lemma bilinearOutAt_eq_bilinearCoef (op : ℚ → ℚ → ℚ) (x y : ℚ)
    (x_terms y_terms : List ℚ) (m : ℕ) (hm : m ≤ x_terms.length) :
    bilinearOutAt op x y x_terms y_terms m =
      bilinearCoef op (seriesToFun x x_terms) (seriesToFun y y_terms) m := by
  rcases m with - | i
  · rfl
  · unfold bilinearOutAt bilinearTaylorRule
    simp only [Nat.succ_ne_zero, if_false, Nat.add_sub_cancel]
    exact getD_map_range _ _ _ _ (by omega)

/-- Claim C3: for each order `k = 0..K` the bilinear rule returns
`v_k = fact(k) * Σ_{j=0}^{k} op(u_j, w_{k-j}) / (fact(k-j) fact(j))`; and for
`mul` with primal `2` and series `[1, 0]` the output primal is `4` and the
first output coefficient is `4`. -/
theorem bilinear_taylor_spec (op : ℚ → ℚ → ℚ) (x y : ℚ)
    (x_terms y_terms : List ℚ) (k : ℕ) (hk : k ≤ x_terms.length) :
    bilinearOutAt op x y x_terms y_terms k =
      (Nat.factorial k : ℚ) * ∑ j in Finset.range (k + 1),
        op (seriesToFun x x_terms j) (seriesToFun y y_terms (k - j)) /
          ((Nat.factorial (k - j) : ℚ) * (Nat.factorial j : ℚ)) ∧
    (bilinearTaylorRule (fun a b => a * b) 2 2 [1, 0] [1, 0]).1 = 4 ∧
    (bilinearTaylorRule (fun a b => a * b) 2 2 [1, 0] [1, 0]).2.getD 0 0 = 4 := by
  refine ⟨?_, ?_, ?_⟩
  · rw [bilinearOutAt_eq_bilinearCoef op x y x_terms y_terms k hk, bilinearCoef]
    apply congrArg
    apply Finset.sum_congr rfl
    intro j hj
    ring
  · norm_num [bilinearTaylorRule, bilinearCoef, seriesToFun]
  · have h0 : (0 : ℕ) < ([(1 : ℚ), 0]).length := by norm_num
    rw [bilinearTaylorRule]
    rw [getD_map_range _ _ _ _ (by norm_num : 0 < ([(1 : ℚ), 0]).length)]
    norm_num [bilinearCoef, seriesToFun, Finset.sum_range_succ]

/-- Witness for C3 at `op = (· * ·)`, `x = y = 2`, series `[1, 0]`, `k = 1`. -/
theorem bilinear_taylor_spec_witness :
    bilinearOutAt (fun a b => a * b) 2 2 [1, 0] [1, 0] 1 =
      (Nat.factorial 1 : ℚ) * ∑ j in Finset.range (1 + 1),
        (fun a b => a * b) (seriesToFun 2 [1, 0] j) (seriesToFun 2 [1, 0] (1 - j)) /
          ((Nat.factorial (1 - j) : ℚ) * (Nat.factorial j : ℚ)) :=
  (bilinear_taylor_spec (fun a b => a * b) 2 2 [1, 0] [1, 0] 1 (by norm_num)).1

/-! ### The logarithm rule (`_log_taylor`)

Source:
```
def _log_taylor(primals_in, series_in):
  x, = primals_in
  series, = series_in
  u = [x] + series
  v = [lax.log(x)] + [None] * len(series)
  def scale(k, j): return 1. / (fact(k-j) * fact(j-1))
  for k in range(1, len(v)):
    conv = sum([scale(k, j) * v[j] * u[k-j] for j in range(1, k)])
    v[k] = (u[k] - fact(k - 1) * conv) / u[0]
  primal_out, *series_out = v
  return primal_out, series_out
```
`lax.log` is abstracted as `L : ℚ → ℚ`.  The convolution over `j ∈ [1, k-1]`
is reindexed by `j = k - (i + 1)` backwards (so at outer index `k + 1`, `i`
ranges over `range k` and the recursive call is at `k - i ≤ k`); the summands
are unchanged, only their order is reversed. -/

def logCoef (L : ℚ → ℚ) (u : ℕ → ℚ) : ℕ → ℚ
  | 0 => L (u 0)
  | k + 1 =>
    (u (k + 1) - (Nat.factorial k : ℚ) * ∑ i in Finset.range k,
      (1 / ((Nat.factorial (i + 1) : ℚ) * (Nat.factorial (k - i - 1) : ℚ))) *
        logCoef L u (k - i) * u (i + 1)) / u 0
termination_by k => k
decreasing_by exact Nat.lt_succ_of_le (Nat.sub_le _ _)

def logTaylor (L : ℚ → ℚ) (x : ℚ) (series : List ℚ) : ℚ × List ℚ :=
  (logCoef L (seriesToFun x series) 0,
   (List.range series.length).map (fun i => logCoef L (seriesToFun x series) (i + 1)))

lemma expCoef_zero (E : ℚ → ℚ) (u : ℕ → ℚ) : expCoef E u 0 = E (u 0) := by
  rw [expCoef]

/-- Propagating a jet through `log(exp(x))`: the exp rule feeds the log rule. -/
def logExpRoundTrip (E L : ℚ → ℚ) (x : ℚ) (series : List ℚ) : ℚ × List ℚ :=
  logTaylor L (expTaylor E x series).1 (expTaylor E x series).2

/-- Claim C4: under the two facts the floating-point primitives provide
(`log(exp x) = x` and `exp x ≠ 0`), propagating jets through `log(exp(x))`
reproduces the identity series for every series of length 1, 2 or 3. -/
theorem log_exp_round_trip_spec (E L : ℚ → ℚ) (x s1 s2 s3 : ℚ)
    (hE : E x ≠ 0) (hL : L (E x) = x) :
    logExpRoundTrip E L x [s1] = (x, [s1]) ∧
    logExpRoundTrip E L x [s1, s2] = (x, [s1, s2]) ∧
    logExpRoundTrip E L x [s1, s2, s3] = (x, [s1, s2, s3]) := by
  refine ⟨?_, ?_, ?_⟩ <;>
  · simp only [logExpRoundTrip, expTaylor, logTaylor, List.length_cons,
      List.length_nil, List.range_succ, List.range_zero, List.nil_append,
      List.map_append, List.map_cons, List.map_nil, List.length_append,
      expCoef, logCoef, seriesToFun, Finset.sum_range_succ, Finset.sum_range_zero,
      Prod.mk.injEq, List.cons.injEq, List.getD_cons_zero, List.getD_cons_succ]
    norm_num [hL, expCoef_zero, seriesToFun]
    all_goals field_simp
    all_goals (try constructor)
    all_goals (try ring)

/-- Witness for C4 at `E = (· + 1)` (so `E 0 = 1 ≠ 0`), `L = (· - 1)`,
`x = 0`, series `[1, 2, 3]`. -/
theorem log_exp_round_trip_spec_witness :
    logExpRoundTrip (fun t => t + 1) (fun t => t - 1) 0 [1, 2, 3] =
      ((0 : ℚ), [1, 2, 3]) :=
  (log_exp_round_trip_spec (fun t => t + 1) (fun t => t - 1) 0 1 2 3
    (by norm_num) (by norm_num)).2.2

/-! ### The max-reduction rule (`_reduce_max_taylor_rule`)

Source:
```
def _reduce_max_taylor_rule(primals_in, series_in, **params):
  operand, = primals_in
  gs, = series_in
  primal_out = lax.reduce_max_p.bind(operand, **params)
  axes = params.pop("axes", None)
  primal_dtype = gs[0].dtype
  shape = [1 if i in axes else d for i, d in enumerate(operand.shape)]
  location_indicators = lax.convert_element_type(
        lax._eq_meet(operand, lax.reshape(primal_out, shape)), primal_dtype)
  counts = lax._reduce_sum(location_indicators, axes)
  def _reduce_chooser_taylor_rule(g):
    return lax.div(lax._reduce_sum(lax.mul(g, location_indicators), axes), counts)
  series_out = [_reduce_chooser_taylor_rule(g) for g in gs]
  return primal_out, series_out
```
An array is modelled as a function `G → A → ℚ` where `G` indexes the kept
axes and `A` (finite, nonempty) indexes the reduced `axes`; reduction over
`axes` becomes max/sum over `A`, and the reshape/broadcast of `primal_out`
back against `operand` becomes ignoring the `A` index. -/

def reduceMax {A : Type} [Fintype A] [Nonempty A] (f : A → ℚ) : ℚ :=
  Finset.univ.sup' Finset.univ_nonempty f

def locationIndicator {G A : Type} [Fintype A] [Nonempty A]
    (operand : G → A → ℚ) (g : G) (a : A) : ℚ :=
  if operand g a = reduceMax (operand g) then 1 else 0

def maxCounts {G A : Type} [Fintype A] [Nonempty A]
    (operand : G → A → ℚ) (g : G) : ℚ :=
  ∑ a : A, locationIndicator operand g a

def reduceMaxTaylorRule {G A : Type} [Fintype A] [Nonempty A]
    (operand : G → A → ℚ) (gs : List (G → A → ℚ)) : (G → ℚ) × List (G → ℚ) :=
  (fun g => reduceMax (operand g),
   gs.map (fun gk g =>
     (∑ a : A, gk g a * locationIndicator operand g a) / maxCounts operand g))

/-- The concrete operand `[3.0, 3.0, 1.0]` of the tie-sharing check. -/
def maxExampleOperand : Unit → Fin 3 → ℚ :=
  fun _ i => if i = 0 then 3 else if i = 1 then 3 else 1

/-- The concrete order-1 coefficient `[1.0, 0.0, 0.0]` of the tie-sharing check. -/
def maxExampleSeries : Unit → Fin 3 → ℚ :=
  fun _ i => if i = 0 then 1 else 0

lemma maxExample_reduceMax : reduceMax (maxExampleOperand ()) = 3 := by
  apply le_antisymm
  · apply Finset.sup'_le
    intro a _
    simp only [maxExampleOperand]
    rcases eq_or_ne a 0 with rfl | h0
    · norm_num
    · rcases eq_or_ne a 1 with rfl | h1
      · norm_num
      · norm_num [h0, h1]
  · have h := Finset.le_sup' (f := maxExampleOperand ())
      (Finset.mem_univ (0 : Fin 3))
    simpa [maxExampleOperand, reduceMax] using h

/-- Claim C5: the max-reduction rule returns the elementwise max over the
reduced axes as primal; `counts` is the number of maximal positions per
group; order-`k` output is `reduce_sum(g_k * indicator, axes) / counts`; and
on operand `[3, 3, 1]` with series `[[1, 0, 0]]` it returns primal `3` and
coefficient `1/2`. -/
theorem reduce_max_taylor_spec {G A : Type} [Fintype A] [Nonempty A]
    (operand : G → A → ℚ) (gs : List (G → A → ℚ)) (g : G) :
    (∃ a : A, operand g a = (reduceMaxTaylorRule operand gs).1 g) ∧
    (∀ a : A, operand g a ≤ (reduceMaxTaylorRule operand gs).1 g) ∧
    maxCounts operand g =
      ((Finset.univ.filter (fun a => operand g a = reduceMax (operand g))).card : ℚ) ∧
    (∀ (k : ℕ) (gk : G → A → ℚ), gs.get? k = some gk →
      (reduceMaxTaylorRule operand gs).2.get? k =
        some (fun g2 => (∑ a : A, gk g2 a * locationIndicator operand g2 a) /
          maxCounts operand g2)) ∧
    (reduceMaxTaylorRule maxExampleOperand [maxExampleSeries]).1 () = 3 ∧
    (reduceMaxTaylorRule maxExampleOperand [maxExampleSeries]).2.getD 0
      (fun _ => 0) () = 1 / 2 := by
  refine ⟨?_, ?_, ?_, ?_, ?_, ?_⟩
  · obtain ⟨a, -, ha⟩ :=
      Finset.exists_mem_eq_sup' (Finset.univ_nonempty (α := A)) (operand g)
    exact ⟨a, ha.symm⟩
  · exact fun a => Finset.le_sup' (operand g) (Finset.mem_univ a)
  · simp [maxCounts, locationIndicator, Finset.sum_boole]
  · intro k gk h
    simp only [reduceMaxTaylorRule, List.get?_eq_getElem?, List.getElem?_map]
    rw [List.get?_eq_getElem? ] at h
    rw [h]
    rfl
  · simp [reduceMaxTaylorRule, maxExample_reduceMax]
  · simp only [reduceMaxTaylorRule, List.map_cons, List.map_nil,
      List.getD_cons_zero]
    simp only [maxCounts, locationIndicator, maxExample_reduceMax,
      maxExampleOperand, maxExampleSeries, Fin.sum_univ_three]
    simp only [show ((0 : Fin 3) = 0) ↔ True by decide,
      show ((0 : Fin 3) = 1) ↔ False by decide,
      show ((1 : Fin 3) = 0) ↔ False by decide,
      show ((1 : Fin 3) = 1) ↔ True by decide,
      show ((2 : Fin 3) = 0) ↔ False by decide,
      show ((2 : Fin 3) = 1) ↔ False by decide, if_true, if_false]
    norm_num

/-- Witness for C5: the coefficient formula at the concrete tie example. -/
theorem reduce_max_taylor_spec_witness :
    (reduceMaxTaylorRule maxExampleOperand [maxExampleSeries]).2.get? 0 =
      some (fun g2 => (∑ a : Fin 3,
          maxExampleSeries g2 a * locationIndicator maxExampleOperand g2 a) /
        maxCounts maxExampleOperand g2) :=
  (reduce_max_taylor_spec maxExampleOperand [maxExampleSeries] ()).2.2.2.1 0
    maxExampleSeries rfl

/-! ### The gather rule (`_gather_taylor_rule`)

Source:
```
def _gather_taylor_rule(primals_in, series_in, **params):
  operand, start_indices = primals_in
  gs, _ = series_in
  primal_out = lax.gather_p.bind(operand, start_indices, **params)
  series_out = [lax.gather_p.bind(g, start_indices, **params) for g in gs]
  return primal_out, series_out
```
`lax.gather_p.bind(·, ·, **params)` is abstracted as `gbind : α → ι → α`
(`α` data arrays, `ι` index arrays).  The second component of `series_in`
(the series of the index operand) is the discarded `_`. -/

def gatherTaylorRule {α ι : Type} (gbind : α → ι → α)
    (operand : α) (start_indices : ι) (gs : List α) (idx_series : List ι) :
    α × List α :=
  (gbind operand start_indices, gs.map (fun g => gbind g start_indices))

/-- Claim C6: the gather rule gathers the data primal and each data
coefficient with the same non-differentiated indices, and its result does not
depend on the series of the index operand at all (it equals the result with
no index series). -/
theorem gather_taylor_spec {α ι : Type} (gbind : α → ι → α) (operand : α)
    (start_indices : ι) (gs : List α) (idx_series idx_series2 : List ι) :
    (gatherTaylorRule gbind operand start_indices gs idx_series).1 =
      gbind operand start_indices ∧
    (∀ k : ℕ, (gatherTaylorRule gbind operand start_indices gs idx_series).2.get? k =
      (gs.get? k).map (fun g => gbind g start_indices)) ∧
    gatherTaylorRule gbind operand start_indices gs idx_series =
      gatherTaylorRule gbind operand start_indices gs idx_series2 ∧
    gatherTaylorRule gbind operand start_indices gs idx_series =
      gatherTaylorRule gbind operand start_indices gs [] :=
  ⟨rfl, fun k => by simp [gatherTaylorRule], rfl, rfl⟩

/-! ### The unimplemented interception paths

Source:
```
  def process_call(self, call_primitive, f, tracers, params):
    assert False  # TODO

  def post_process_call(self, call_primitive, out_tracer, params):
    assert False  # TODO

  def join(self, xt, yt):
    assert False  # TODO?
```
A Python `assert False` raises `AssertionError` unconditionally; each method
is modelled as a function that returns the fatal error on every input and can
return no other result. -/

inductive JetFatalErr : Type
  | assertionFailed
deriving DecidableEq

def process_call {C F T P : Type} (_call_primitive : C) (_f : F)
    (_tracers : List T) (_params : P) : Except JetFatalErr (List T) :=
  .error .assertionFailed

def post_process_call {C T P : Type} (_call_primitive : C) (_out_tracer : T)
    (_params : P) : Except JetFatalErr T :=
  .error .assertionFailed

def joinTracers {T : Type} (_xt _yt : T) : Except JetFatalErr T :=
  .error .assertionFailed

/-- Claim C9: the sub-function call boundary, its exit hook, and the join of
divergent-control-path jet values each abort unconditionally on every input;
none of the three ever produces a non-error result. -/
theorem unsupported_paths_abort {C F T P : Type} (c : C) (f : F)
    (tracers : List T) (ps : P) (t : T) (xt yt : T) :
    process_call c f tracers ps = .error .assertionFailed ∧
    post_process_call c t ps = .error .assertionFailed ∧
    joinTracers xt yt = .error .assertionFailed :=
  ⟨rfl, rfl, rfl⟩

/-! ### Entry validation in `jet`

Source:
```
def jet(fun, primals, series):
  try:
    order, = set(map(len, series))
  except ValueError:
    msg = "jet terms have inconsistent lengths for different arguments"
    raise ValueError(msg) from None

  for i, (x, terms) in enumerate(zip(primals, series)):
    treedef = tree_structure(x)
    if not treedef_is_leaf(treedef):
      raise ValueError("primal value at position {} is not an array".format(i))
    for j, t in enumerate(terms):
      treedef = tree_structure(t)
      if not treedef_is_leaf(treedef):
        raise ValueError("term {} for argument {} is not an array".format(j, i))
  ...
  out_primals, out_terms = jet_transform(f).call_wrapped(primals, series)
```
`order, = set(...)` raises `ValueError` (caught and re-raised with the
inconsistent-lengths message) exactly when the set of series lengths does not
have exactly one element — including when `series` is empty.  Arguments are
pytrees; an argument passes `treedef_is_leaf` exactly when it is an atomic
array (a leaf).  Python `zip(primals, series)` truncates to the shorter of
the two sequences.  The evaluation of the user function is abstracted as
`run`, invoked only after all checks pass. -/

inductive PyTree (α : Type) : Type
  | leaf (a : α)
  | node (children : List (PyTree α))

def treedefIsLeaf {α : Type} : PyTree α → Bool
  | .leaf _ => true
  | .node _ => false

inductive JetInputErr : Type
  | inconsistentLengths
  | primalNotArray (i : ℕ)
  | termNotArray (j i : ℕ)
deriving DecidableEq

def checkTermsFrom {α : Type} (i j : ℕ) : List (PyTree α) → Option JetInputErr
  | [] => none
  | t :: rest =>
    if treedefIsLeaf t then checkTermsFrom i (j + 1) rest
    else some (.termNotArray j i)

def checkArgsFrom {α : Type} (i : ℕ) :
    List (PyTree α × List (PyTree α)) → Option JetInputErr
  | [] => none
  | (x, terms) :: rest =>
    if treedefIsLeaf x then
      match checkTermsFrom i 0 terms with
      | some e => some e
      | none => checkArgsFrom (i + 1) rest
    else some (.primalNotArray i)

def jetCheck {α : Type} (primals : List (PyTree α))
    (series : List (List (PyTree α))) : Except JetInputErr ℕ :=
  match series.map List.length with
  | [] => .error .inconsistentLengths
  | l :: ls =>
    if ls.all (· = l) then
      match checkArgsFrom 0 (primals.zip series) with
      | some e => .error e
      | none => .ok l
    else .error .inconsistentLengths

/-- Model of `jet` up to the point where the user function is first evaluated: the
validated call either fails with an input error or hands the inputs to the
propagation `run`. -/
def jetRun {α β : Type} (run : List (PyTree α) → List (List (PyTree α)) → β)
    (primals : List (PyTree α)) (series : List (List (PyTree α))) :
    Except JetInputErr β :=
  match jetCheck primals series with
  | .error e => .error e
  | .ok _ => .ok (run primals series)

lemma checkTermsFrom_eq_none {α : Type} (i : ℕ) :
    ∀ (j : ℕ) (terms : List (PyTree α)), checkTermsFrom i j terms = none →
      ∀ t ∈ terms, treedefIsLeaf t = true := by
  intro j terms
  induction terms generalizing j with
  | nil => intro _ t ht; exact absurd ht (List.not_mem_nil t)
  | cons t rest ih =>
    intro h s hs
    rw [checkTermsFrom] at h
    by_cases hleaf : treedefIsLeaf t = true
    · rw [if_pos hleaf] at h
      rcases List.mem_cons.mp hs with hs | hs
      · exact hs ▸ hleaf
      · exact ih (j + 1) h s hs
    · rw [if_neg hleaf] at h
      exact absurd h (by simp)

lemma checkArgsFrom_eq_none {α : Type} :
    ∀ (i : ℕ) (pairs : List (PyTree α × List (PyTree α))),
      checkArgsFrom i pairs = none →
      ∀ p ∈ pairs, treedefIsLeaf p.1 = true ∧
        ∀ t ∈ p.2, treedefIsLeaf t = true := by
  intro i pairs
  induction pairs generalizing i with
  | nil => intro _ p hp; exact absurd hp (List.not_mem_nil p)
  | cons q rest ih =>
    intro h p hp
    obtain ⟨x, terms⟩ := q
    rw [checkArgsFrom] at h
    by_cases hleaf : treedefIsLeaf x = true
    · rw [if_pos hleaf] at h
      rcases hterms : checkTermsFrom i 0 terms with - | e
      · rcases List.mem_cons.mp hp with hp | hp
        · exact hp ▸ ⟨hleaf, checkTermsFrom_eq_none i 0 terms hterms⟩
        · rw [hterms] at h
          exact ih (i + 1) h p hp
      · rw [hterms] at h
        exact absurd h (by simp)
    · rw [if_neg hleaf] at h
      exact absurd h (by simp)

lemma mem_zip_of_mem_left {α β : Type} :
    ∀ (l1 : List α) (l2 : List β), l1.length = l2.length →
      ∀ x ∈ l1, ∃ y ∈ l2, (x, y) ∈ l1.zip l2 := by
  intro l1
  induction l1 with
  | nil => intro l2 _ x hx; exact absurd hx (List.not_mem_nil x)
  | cons a t1 ih =>
    intro l2 hlen x hx
    cases l2 with
    | nil => simp at hlen
    | cons b t2 =>
      rcases List.mem_cons.mp hx with rfl | hx
      · exact ⟨b, List.mem_cons_self b t2, List.mem_cons_self (x, b) _⟩
      · obtain ⟨y, hy, hxy⟩ := ih t2 (by simpa using hlen) x hx
        exact ⟨y, List.mem_cons_of_mem b hy, List.mem_cons_of_mem (a, b) hxy⟩

lemma mem_zip_of_mem_right {α β : Type} :
    ∀ (l1 : List α) (l2 : List β), l1.length = l2.length →
      ∀ y ∈ l2, ∃ x ∈ l1, (x, y) ∈ l1.zip l2 := by
  intro l1
  induction l1 with
  | nil =>
    intro l2 hlen y hy
    cases l2 with
    | nil => exact absurd hy (List.not_mem_nil y)
    | cons b t2 => simp at hlen
  | cons a t1 ih =>
    intro l2 hlen y hy
    cases l2 with
    | nil => exact absurd hy (List.not_mem_nil y)
    | cons b t2 =>
      rcases List.mem_cons.mp hy with rfl | hy
      · exact ⟨a, List.mem_cons_self a t1, List.mem_cons_self (a, y) _⟩
      · obtain ⟨x, hx, hxy⟩ := ih t2 (by simpa using hlen) y hy
        exact ⟨x, List.mem_cons_of_mem a hx, List.mem_cons_of_mem (a, b) hxy⟩

/-- Counterexample to Claim C7 as stated: when `primals` is longer than
`series`, Python `zip(primals, series)` silently drops the surplus primal, so
a non-array primal in the surplus escapes the entry check and the user
function is evaluated anyway. -/
theorem jet_missing_primal_check_counterexample :
    treedefIsLeaf (PyTree.node ([] : List (PyTree ℚ))) = false ∧
    jetRun (fun _ _ => (0 : ℚ)) [PyTree.leaf (0 : ℚ), PyTree.node []]
      [[PyTree.leaf (0 : ℚ)]] = .ok 0 :=
  ⟨rfl, rfl⟩

/-- Claim C7 (amended: `primals` and `series` must have the same number of
arguments, as the public call contract requires): inconsistent series
lengths, a non-array primal, or a non-array series coefficient make `jet`
fail with an input error before the user function is evaluated, so no
computation occurs and the result does not depend on the function at all. -/
theorem jet_input_validation {α β : Type} (primals : List (PyTree α))
    (series : List (List (PyTree α)))
    (hlen : primals.length = series.length)
    (h : (∃ l1 ∈ series, ∃ l2 ∈ series, l1.length ≠ l2.length) ∨
         (∃ x ∈ primals, treedefIsLeaf x = false) ∨
         (∃ ts ∈ series, ∃ t ∈ ts, treedefIsLeaf t = false)) :
    ∃ e : JetInputErr,
      ∀ run : List (PyTree α) → List (List (PyTree α)) → β,
        jetRun run primals series = .error e := by
  suffices hc : ∃ e, jetCheck primals series = .error e by
    obtain ⟨e, he⟩ := hc
    exact ⟨e, fun run => by rw [jetRun, he]⟩
  cases series with
  | nil => exact ⟨.inconsistentLengths, rfl⟩
  | cons s ss =>
    by_cases hall : ((ss.map List.length).all (fun x => x = s.length)) = true
    · have hunif : ∀ l ∈ s :: ss, l.length = s.length := by
        intro l hl
        rcases List.mem_cons.mp hl with rfl | hl
        · rfl
        · simpa using List.all_eq_true.mp hall l.length
            (List.mem_map_of_mem List.length hl)
      rcases hcheck : checkArgsFrom 0 (primals.zip (s :: ss)) with - | e
      · exfalso
        have hok := checkArgsFrom_eq_none 0 (primals.zip (s :: ss)) hcheck
        rcases h with ⟨l1, h1, l2, h2, hne⟩ | ⟨x, hx, hxleaf⟩ | ⟨ts, hts, t, ht, htleaf⟩
        · exact hne ((hunif l1 h1).trans (hunif l2 h2).symm)
        · obtain ⟨y, -, hxy⟩ := mem_zip_of_mem_left primals (s :: ss) hlen x hx
          have := (hok (x, y) hxy).1
          rw [hxleaf] at this
          exact Bool.false_ne_true this
        · obtain ⟨x, -, hxy⟩ := mem_zip_of_mem_right primals (s :: ss) hlen ts hts
          have := (hok (x, ts) hxy).2 t ht
          rw [htleaf] at this
          exact Bool.false_ne_true this
      · refine ⟨e, ?_⟩
        rw [jetCheck]
        simp only [List.map_cons]
        rw [if_pos hall, hcheck]
    · refine ⟨.inconsistentLengths, ?_⟩
      rw [jetCheck]
      simp only [List.map_cons]
      rw [if_neg hall]

/-- Witness for C7 (amended) at one non-array coefficient. -/
theorem jet_input_validation_witness :
    ∃ e : JetInputErr,
      ∀ run : List (PyTree ℚ) → List (List (PyTree ℚ)) → ℚ,
        jetRun run [PyTree.leaf 0] [[PyTree.node []]] = .error e :=
  jet_input_validation [PyTree.leaf 0] [[PyTree.node []]] rfl
    (Or.inr (Or.inr ⟨[PyTree.node []], by simp, PyTree.node [], by simp, rfl⟩))

/-- Claim C10: a zero-argument `jet` call fails with the same
inconsistent-lengths input error as a genuinely inconsistent call, and the
user function is never invoked (the result is independent of it). -/
theorem jet_empty_args_spec {α β : Type}
    (run run2 : List (PyTree α) → List (List (PyTree α)) → β) :
    jetRun run [] [] = .error .inconsistentLengths ∧
    jetRun run [] [] = jetRun run2 [] [] ∧
    jetRun (fun _ _ => (0 : ℚ)) [PyTree.leaf (0 : ℚ), PyTree.leaf 0]
      [[PyTree.leaf 0], []] = .error .inconsistentLengths :=
  ⟨rfl, rfl, rfl⟩

/-! ### Order reconciliation in `JetTrace.process_primitive`

Source:
```
  def process_primitive(self, primitive, tracers, params):
    primals_in, series_in = unzip2((t.primal, t.terms) for t in tracers)
    order, = {len(terms) for terms in series_in if terms is not zero_series}
    series_in = [[zero_term] * order if s is zero_series else s
                 for s in series_in]
    series_in = [[onp.zeros(onp.shape(x), dtype=onp.result_type(x))
                  if t is zero_term else t for t in series]
                 for x, series in zip(primals_in, series_in)]
    ...
```
An operand series is either the `zero_series` sentinel or a list whose
entries are the `zero_term` sentinel or a concrete array; an array is
modelled as shape, dtype and flat data, and `onp.zeros(onp.shape(x),
dtype=onp.result_type(x))` as `zerosLike`.  `order, = {...}` raises
`ValueError` exactly when the set of materialized series lengths does not
have exactly one element — both when lengths disagree and when no operand
carries a concrete series. -/

structure Arr : Type where
  shape : List ℕ
  dtype : ℕ
  data : List ℚ
deriving DecidableEq

def zerosLike (x : Arr) : Arr :=
  ⟨x.shape, x.dtype, List.replicate x.shape.prod 0⟩

inductive Term : Type
  | zeroTerm
  | val (a : Arr)
deriving DecidableEq

inductive SeriesIn : Type
  | zeroSeries
  | terms (ts : List Term)
deriving DecidableEq

inductive JetPrimErr : Type
  | inconsistentOrder
deriving DecidableEq

def concreteLens (series_in : List SeriesIn) : List ℕ :=
  series_in.filterMap (fun s => match s with
    | .zeroSeries => none
    | .terms ts => some ts.length)

def establishOrder (series_in : List SeriesIn) : Except JetPrimErr ℕ :=
  match concreteLens series_in with
  | [] => .error .inconsistentOrder
  | o :: rest =>
    if rest.all (fun x => x = o) then .ok o else .error .inconsistentOrder

def expandZeroSeries (order : ℕ) : SeriesIn → List Term
  | .zeroSeries => List.replicate order .zeroTerm
  | .terms ts => ts

def materializeTerms (x : Arr) (ts : List Term) : List Arr :=
  ts.map (fun t => match t with
    | .zeroTerm => zerosLike x
    | .val a => a)

def processPrimitiveSeries (primals_in : List Arr) (series_in : List SeriesIn) :
    Except JetPrimErr (List (List Arr)) :=
  match establishOrder series_in with
  | .error e => .error e
  | .ok order =>
      .ok (List.zipWith (fun x s => materializeTerms x (expandZeroSeries order s))
        primals_in series_in)

lemma mem_concreteLens {n : ℕ} {s : List SeriesIn} :
    n ∈ concreteLens s ↔ ∃ ts : List Term, SeriesIn.terms ts ∈ s ∧ ts.length = n := by
  unfold concreteLens
  rw [List.mem_filterMap]
  constructor
  · rintro ⟨a, ha, hfa⟩
    cases a with
    | zeroSeries => simp at hfa
    | terms ts => exact ⟨ts, ha, by simpa using hfa⟩
  · rintro ⟨ts, hts, hlen⟩
    exact ⟨SeriesIn.terms ts, hts, by simpa using hlen⟩

lemma establishOrder_ok_iff {s : List SeriesIn} {K : ℕ} :
    establishOrder s = .ok K ↔
      K ∈ concreteLens s ∧ ∀ n ∈ concreteLens s, n = K := by
  rcases hc : concreteLens s with - | ⟨o, rest⟩
  · simp [establishOrder, hc]
  · by_cases hall : (rest.all (fun x => x = o)) = true
    · simp only [establishOrder, hc, hall, if_true, Except.ok.injEq]
      constructor
      · rintro rfl
        refine ⟨List.mem_cons_self _ _, fun n hn => ?_⟩
        rcases List.mem_cons.mp hn with rfl | hn
        · rfl
        · simpa using List.all_eq_true.mp hall n hn
      · rintro ⟨-, hal⟩
        exact hal o (List.mem_cons_self o rest)
    · have hall2 : (rest.all (fun x => x = o)) = false := by
        simpa using hall
      simp only [establishOrder, hc, hall2, Bool.false_eq_true, if_false]
      constructor
      · intro hc2; exact absurd hc2 (by simp)
      · rintro ⟨-, hal⟩
        exfalso
        apply hall
        rw [List.all_eq_true]
        intro n hn
        have h1 := hal n (List.mem_cons_of_mem o hn)
        have h2 := hal o (List.mem_cons_self o rest)
        simp [h1, h2]

lemma establishOrder_cases (s : List SeriesIn) :
    (∃ K, establishOrder s = .ok K) ∨
      establishOrder s = .error .inconsistentOrder := by
  rcases hc : concreteLens s with - | ⟨o, rest⟩
  · exact Or.inr (by simp [establishOrder, hc])
  · by_cases hall : (rest.all (fun x => x = o)) = true
    · exact Or.inl ⟨o, by simp [establishOrder, hc, hall]⟩
    · have hall2 : (rest.all (fun x => x = o)) = false := by
        simpa using hall
      exact Or.inr (by simp [establishOrder, hc, hall2])

/-- Claim C8: before a propagation rule runs, materialized series of
differing lengths abort with the inconsistent-truncation-order error; if no
operand carries a concrete series the call also aborts; otherwise each
zero-series operand expands to `K` zero terms (with `K` the concrete
operands' common length) and every zero term materializes as a zero array of
the shape and dtype of its operand's primal. -/
theorem process_primitive_series_spec (primals_in : List Arr)
    (series_in : List SeriesIn) (K : ℕ) :
    (∀ ts1 ts2 : List Term, SeriesIn.terms ts1 ∈ series_in →
      SeriesIn.terms ts2 ∈ series_in → ts1.length ≠ ts2.length →
      processPrimitiveSeries primals_in series_in = .error .inconsistentOrder) ∧
    ((∀ s ∈ series_in, s = SeriesIn.zeroSeries) →
      processPrimitiveSeries primals_in series_in = .error .inconsistentOrder) ∧
    ((∃ ts : List Term, SeriesIn.terms ts ∈ series_in ∧ ts.length = K) →
      (∀ ts : List Term, SeriesIn.terms ts ∈ series_in → ts.length = K) →
      processPrimitiveSeries primals_in series_in =
        .ok (List.zipWith
          (fun x s => materializeTerms x (expandZeroSeries K s))
          primals_in series_in)) ∧
    (expandZeroSeries K SeriesIn.zeroSeries = List.replicate K Term.zeroTerm) ∧
    (∀ x : Arr, materializeTerms x (List.replicate K Term.zeroTerm) =
        List.replicate K (zerosLike x) ∧
      (zerosLike x).shape = x.shape ∧ (zerosLike x).dtype = x.dtype ∧
      (zerosLike x).data = List.replicate x.shape.prod 0) := by
  refine ⟨?_, ?_, ?_, rfl, ?_⟩
  · intro ts1 ts2 h1 h2 hne
    rcases establishOrder_cases series_in with ⟨K0, hK0⟩ | herr
    · exfalso
      obtain ⟨-, hal⟩ := establishOrder_ok_iff.mp hK0
      have e1 := hal ts1.length (mem_concreteLens.mpr ⟨ts1, h1, rfl⟩)
      have e2 := hal ts2.length (mem_concreteLens.mpr ⟨ts2, h2, rfl⟩)
      exact hne (e1.trans e2.symm)
    · rw [processPrimitiveSeries, herr]
  · intro hall
    have hnil : concreteLens series_in = [] := by
      apply List.filterMap_eq_nil_iff.mpr
      intro s hs
      rw [hall s hs]
    rw [processPrimitiveSeries, establishOrder, hnil]
  · intro hex hall
    have hok : establishOrder series_in = .ok K := by
      apply establishOrder_ok_iff.mpr
      obtain ⟨ts, hts, hlen⟩ := hex
      refine ⟨mem_concreteLens.mpr ⟨ts, hts, hlen⟩, fun n hn => ?_⟩
      obtain ⟨ts2, hts2, hlen2⟩ := mem_concreteLens.mp hn
      exact hlen2 ▸ hall ts2 hts2
    rw [processPrimitiveSeries, hok]
  · intro x
    refine ⟨?_, rfl, rfl, rfl⟩
    unfold materializeTerms
    rw [List.map_replicate]

/-- Witness for C8: one zero-series operand next to one concrete operand of
order 1; the zero series expands and materializes against its primal. -/
theorem process_primitive_series_spec_witness :
    processPrimitiveSeries
        [⟨[2], 0, [5, 7]⟩, ⟨[2], 0, [1, 2]⟩]
        [SeriesIn.zeroSeries,
         SeriesIn.terms [Term.val ⟨[2], 0, [4, 4]⟩]] =
      .ok [[⟨[2], 0, [0, 0]⟩], [⟨[2], 0, [4, 4]⟩]] := by
  have h := (process_primitive_series_spec
    [⟨[2], 0, [5, 7]⟩, ⟨[2], 0, [1, 2]⟩]
    [SeriesIn.zeroSeries, SeriesIn.terms [Term.val ⟨[2], 0, [4, 4]⟩]] 1).2.2.1
    ⟨[Term.val ⟨[2], 0, [4, 4]⟩], by simp, rfl⟩
    (by
      intro ts hts
      rcases List.mem_cons.mp hts with h1 | h1
      · exact absurd h1 (by simp)
      · rcases List.mem_cons.mp h1 with h2 | h2
        · simp only [SeriesIn.terms.injEq] at h2
          rw [h2]
          rfl
        · exact absurd h2 (List.not_mem_nil _))
  rw [h]
  rfl

end JetSpec
